import Mathlib

/-!
Shallow embedding of the note-cli tree engine (src/main.py) and proofs about
its specified properties.  Python strings are modelled as lists of
characters, Python sets as duplicate-free lists, and the filesystem facts a
function consumes (relative folder of a note, the directories seen by
os.walk, path-safety check results) as explicit inputs.
-/

abbrev Str := List Char

/-- Characters of a Lean string literal, used to write concrete paths. -/
def chrs (s : String) : Str := s.data

/-- Python str.lower, as applied to paths, names and queries. -/
def lowerStr (s : Str) : Str := s.map Char.toLower

/-- Test whether the first list is a prefix of the second. -/
def hasPrefixCh : Str → Str → Bool
  | [], _ => true
  | _ :: _, [] => false
  | p :: ps, c :: cs => p == c && hasPrefixCh ps cs

/-- Python substring test `pat in s`. -/
def hasSub : Str → Str → Bool
  | pat, [] => pat.isEmpty
  | pat, c :: cs => hasPrefixCh pat (c :: cs) || hasSub pat cs

/-- Python str.endswith. -/
def endsWithStr (s sfx : Str) : Bool := hasPrefixCh sfx.reverse s.reverse

/-- Whitespace characters removed by Python str.strip(). -/
def isPySpace (c : Char) : Bool :=
  c == ' ' || c == '\t' || c == '\n' || c == '\r' || c == '\x0b' || c == '\x0c'

/-- Python str.strip(): drop leading and trailing whitespace. -/
def stripStr (s : Str) : Str :=
  ((s.dropWhile isPySpace).reverse.dropWhile isPySpace).reverse

/-- Python path.split('/'): split a path into slash-separated segments. -/
def splitSlash : Str → List Str
  | [] => [[]]
  | c :: rest =>
    match splitSlash rest with
    | [] => [[]]
    | p :: ps => if c = '/' then [] :: p :: ps else (c :: p) :: ps

/-- Python '/'.join(segments). -/
def joinSlash : List Str → Str
  | [] => []
  | [p] => p
  | p :: ps => p ++ '/' :: joinSlash ps

/-- The proper ancestor prefixes of a path, exactly as both loops of the
source compute them: the joins of the first i segments for 1 ≤ i < k where
k is the number of segments. -/
def ancestorsOf (f : Str) : List Str :=
  (List.range' 1 ((splitSlash f).length - 1)).map (fun i => joinSlash ((splitSlash f).take i))

/-- Python sorted() on a list of path strings (code-point lexicographic). -/
def sortStr (l : List Str) : List Str := l.insertionSort (· ≤ ·)

/-- A note file: display name and the containing-folder path relative to the
root that owns it.  Roots are assumed not to be nested in one another, so
each note has one well-defined relative folder. -/
structure Note where
  name : Str
  folder : Str
deriving DecidableEq

/-- One display row; source TreeItem tuple (type, item, indent_level). -/
inductive Row where
  | folder (path : Str) (indent : Nat)
  | note (n : Note) (indent : Nat)
deriving DecidableEq

/-- One directory seen by the os.walk pass of _get_folders: path relative to
its root, and whether any immediate file in it is a note file. -/
structure DirEntry where
  rel : Str
  hasNotes : Bool
deriving DecidableEq

/-- Order used by sorted(folder_notes, key=lambda x: x.name). -/
def noteNameLe (a b : Note) : Prop := a.name ≤ b.name

instance : DecidableRel noteNameLe := fun a b => inferInstanceAs (Decidable (a.name ≤ b.name))

/-- Source _get_notes_in_folder: notes whose relative folder equals the
given folder path. -/
def getNotesInFolder (allNotes : List Note) (folder : Str) : List Note :=
  allNotes.filter (fun n => decide (n.folder = folder))

/-- Visibility test of _build_tree_items: with a non-empty query, substring
match on the lower-cased path; with an empty query, every proper ancestor
that is itself in the folder list must be expanded. -/
def folderVisible (folders expanded : List Str) (query : Str) (f : Str) : Bool :=
  if query.isEmpty then
    (ancestorsOf f).all (fun p => !(decide (p ∈ folders)) || decide (p ∈ expanded))
  else hasSub query (lowerStr f)

/-- The rows one folder contributes in _build_tree_items: its folder row at
indent 2 * slash-count, then its note rows (name-sorted, query-filtered) when
it is expanded or a query is active. -/
def folderBlock (allNotes : List Note) (folders expanded : List Str) (query : Str)
    (f : Str) : List Row :=
  if folderVisible folders expanded query f then
    Row.folder f (f.count '/' * 2) ::
      (if decide (f ∈ expanded) || !query.isEmpty then
        (((getNotesInFolder allNotes f).insertionSort noteNameLe).filter
            (fun n => query.isEmpty || hasSub query (lowerStr n.name))).map
          (fun n => Row.note n (f.count '/' * 2 + 2))
      else [])
  else []

/-- Source _build_tree_items: concatenate the per-folder blocks over the
sorted folder list. -/
def buildTreeItems (allNotes : List Note) (folders expanded : List Str)
    (query : Str) : List Row :=
  (sortStr folders).flatMap (folderBlock allNotes folders expanded query)

/-- Source _get_folders: folders containing notes and note-free walked
directories, each with all ancestor prefixes, deduplicated and sorted.  The
source guard `if relative_path:` is always true (pathlib paths define no
truthiness), so a note directly in a root contributes the literal path ".". -/
def getFolders (allNotes : List Note) (walk : List DirEntry) : List Str :=
  let fromNotes := allNotes.flatMap (fun n => n.folder :: ancestorsOf n.folder)
  let fromWalk := walk.flatMap (fun d =>
    if d.rel ≠ chrs "." ∧ d.hasNotes = false then d.rel :: ancestorsOf d.rel else [])
  sortStr (fromNotes ++ fromWalk).dedup

/-- The pieces of NoteCLI state that the tree operations read and write.
walk is the os.walk view of the configured roots (the disk does not change
during tree navigation). -/
structure AppS where
  all_notes : List Note
  walk : List DirEntry
  filtered_notes : List Str
  expanded_folders : List Str
  tree_items : List Row
  selected_index : Nat
deriving DecidableEq

/-- Source _initialize_state (from __init__): folders from _get_folders,
rows built with no query, nothing expanded, selection at 0. -/
def initState (allNotes : List Note) (walk : List DirEntry) : AppS :=
  let fs := getFolders allNotes walk
  ⟨allNotes, walk, fs, [], buildTreeItems allNotes fs [] [], 0⟩

/-- Key handler move_down. -/
def move_down (s : AppS) : AppS :=
  if s.tree_items.isEmpty then s
  else { s with selected_index := (s.selected_index + 1) % s.tree_items.length }

/-- Key handler move_up.  The source computes (index - 1 + len) % len over
Python integers; for index ≥ 0 this equals (index + len - 1) % len over
naturals. -/
def move_up (s : AppS) : AppS :=
  if s.tree_items.isEmpty then s
  else { s with selected_index :=
    (s.selected_index + s.tree_items.length - 1) % s.tree_items.length }

/-- Key handler expand_folder: on a selected folder row not yet expanded, add
it to the expanded set and rebuild the rows (with no query, as the source
call does).  A selected index beyond the row list raises IndexError in the
source; that access is modelled as a no-op and never reached under the
invariant. -/
def expand_folder (s : AppS) : AppS :=
  if s.tree_items.isEmpty then s
  else
    match s.tree_items[s.selected_index]? with
    | some (Row.folder f _) =>
      if f ∈ s.expanded_folders then s
      else
        let e := f :: s.expanded_folders
        { s with expanded_folders := e,
                 tree_items := buildTreeItems s.all_notes s.filtered_notes e [] }
    | _ => s

/-- Key handler collapse_folder: on a selected folder row currently expanded,
remove it and rebuild the rows (with no query, as the source call does). -/
def collapse_folder (s : AppS) : AppS :=
  if s.tree_items.isEmpty then s
  else
    match s.tree_items[s.selected_index]? with
    | some (Row.folder f _) =>
      if f ∈ s.expanded_folders then
        let e := s.expanded_folders.erase f
        { s with expanded_folders := e,
                 tree_items := buildTreeItems s.all_notes s.filtered_notes e [] }
      else s
    | _ => s

/-- Key handler toggle_or_open: on a folder row flip its expansion state and
rebuild the rows; on a note row the source leaves the tree state untouched
and exits to the editor. -/
def toggle_or_open (s : AppS) : AppS :=
  if s.tree_items.isEmpty then s
  else
    match s.tree_items[s.selected_index]? with
    | some (Row.folder f _) =>
      let e := if f ∈ s.expanded_folders then s.expanded_folders.erase f
               else f :: s.expanded_folders
      { s with expanded_folders := e,
               tree_items := buildTreeItems s.all_notes s.filtered_notes e [] }
    | _ => s

/-- Source _update_filtered_notes: lower-case the buffer text, recompute the
folder list from the (unchanged) disk, rebuild the rows with the query and
reset the selection to 0. -/
def update_filtered_notes (s : AppS) (text : Str) : AppS :=
  let fs := getFolders s.all_notes s.walk
  { s with filtered_notes := fs,
           tree_items := buildTreeItems s.all_notes fs s.expanded_folders (lowerStr text),
           selected_index := 0 }

/-- NOTE_EXTENSIONS from the source. -/
def NOTE_EXTENSIONS : List Str := [chrs ".txt", chrs ".md"]

/-- Source validate_filename. -/
def validate_filename (filename : Str) : Bool :=
  let dangerous := [chrs ".exe", chrs ".sh", chrs ".bat", chrs ".cmd", chrs ".py",
    chrs ".js", chrs ".php", chrs ".rb", chrs ".pl", chrs ".ps1", chrs ".vbs",
    chrs ".jar", chrs ".app"]
  if dangerous.any (fun e => endsWithStr (lowerStr filename) e) then false
  else if hasSub (chrs "..") filename || hasSub (chrs "/") filename
      || hasSub (chrs "\\") filename then false
  else if hasSub [Char.ofNat 0] filename then false
  else true

/-- Source create_new_note, from the point where the target folder has been
looked up: folderOk is the outcome of the folder resolution and
is_safe_path check, existing the file names already present at the target,
raw the text typed at the filename prompt (the source strips it).  Returns
the name of the created file. -/
def create_new_note (folderOk : Bool) (existing : List Str) (raw : Str) : Option Str :=
  if folderOk = false then none
  else
    let filename := stripStr raw
    if filename.isEmpty then none
    else if validate_filename filename = false then none
    else
      let target := if NOTE_EXTENSIONS.any (fun e => endsWithStr filename e) then filename
                    else filename ++ chrs ".md"
      if target ∈ existing then none else some target

/-- Outcome of delete_file: the returned flag and the files left on disk. -/
structure DeleteOutcome where
  deleted : Bool
  fs : List Str
deriving DecidableEq

/-- Source delete_file: fileIsSafe is the outcome of the configured-roots
containment check, confirm the raw text typed at the confirmation prompt
(the source strips it before comparing with "DELETE"), fs the files on
disk.  unlink of a missing file raises, which the source reports as not
deleted. -/
def delete_file (fs : List Str) (fileIsSafe : Bool) (confirm : Str)
    (notePath : Str) : DeleteOutcome :=
  if fileIsSafe = false then ⟨false, fs⟩
  else if stripStr confirm ≠ chrs "DELETE" then ⟨false, fs⟩
  else if notePath ∈ fs then ⟨true, fs.erase notePath⟩
  else ⟨false, fs⟩

/-- Scanner for the block shape of a row list: accepts exactly the lists in
which every note row carries the folder of the nearest preceding folder
row. -/
def blockOk : Option Str → List Row → Bool
  | _, [] => true
  | _, Row.folder f _ :: rest => blockOk (some f) rest
  | none, Row.note _ _ :: _ => false
  | some f, Row.note n _ :: rest => decide (n.folder = f) && blockOk (some f) rest

/-- A folder list closed under taking ancestor prefixes. -/
def ancestorClosed (folders : List Str) : Prop :=
  ∀ g ∈ folders, ∀ p ∈ ancestorsOf g, p ∈ folders

/-- Consistency of the app state in the absence of a search query: the folder
list is duplicate-free (as _get_folders, which sorts a Python set, produces
it), the rows are the ones built from the current folders and expanded set
with no query, and the selection is in range when rows exist. -/
def StateInv (s : AppS) : Prop :=
  s.filtered_notes.Nodup ∧
  s.tree_items = buildTreeItems s.all_notes s.filtered_notes s.expanded_folders [] ∧
  (s.tree_items ≠ [] → s.selected_index < s.tree_items.length)

/-- An os.walk view with note-free directories a/a, a/b and a/c (so the
synthesized folders are a, a/a, a/b and a/c). -/
def walkA : List DirEntry := [⟨chrs "a/a", false⟩, ⟨chrs "a/b", false⟩, ⟨chrs "a/c", false⟩]

/-- An os.walk view with note-free directories b/c and a (so the synthesized
folders are a, b and b/c). -/
def walkB : List DirEntry := [⟨chrs "b/c", false⟩, ⟨chrs "a", false⟩]

/-- A reachable state with the selection out of range: expand a, select a/c,
expand it, collapse a, type query "a" (four rows match), move the selection
to the last row and collapse it — the rebuild drops the query, one row
remains and the selection index stays 3. -/
def outOfRangeState : AppS :=
  collapse_folder (move_down (move_down (move_down
    (update_filtered_notes
      (collapse_folder (move_down (expand_folder
        (move_down (move_down (move_down (expand_folder (initState [] walkA))))))))
      (chrs "a")))))

/-- Three folder rows, for exercising the wraparound arithmetic. -/
def threeRows : List Row :=
  [Row.folder (chrs "a") 0, Row.folder (chrs "b") 0, Row.folder (chrs "c") 0]

/-- A state over threeRows with the last row selected. -/
def sThreeLast : AppS := ⟨[], [], [], [], threeRows, 2⟩

/-- A state over threeRows with the first row selected. -/
def sThreeFirst : AppS := ⟨[], [], [], [], threeRows, 0⟩

/-! Helper lemmas about the string primitives. -/

lemma mem_sortStr {a : Str} {l : List Str} : a ∈ sortStr l ↔ a ∈ l :=
  (List.perm_insertionSort _ l).mem_iff

lemma isEmpty_false_of_ne_nil {α : Type} {l : List α} (h : l ≠ []) : l.isEmpty = false := by
  cases l with
  | nil => exact absurd rfl h
  | cons a l => rfl

lemma splitSlash_cons_eq (c : Char) (rest : Str) {p : Str} {ps : List Str}
    (h : splitSlash rest = p :: ps) :
    splitSlash (c :: rest) = if c = '/' then [] :: p :: ps else (c :: p) :: ps := by
  unfold splitSlash
  rw [h]

lemma splitSlash_ne_nil : ∀ s : Str, splitSlash s ≠ []
  | [] => by simp [splitSlash]
  | c :: rest => by
    cases h : splitSlash rest with
    | nil => exact absurd h (splitSlash_ne_nil rest)
    | cons p ps =>
      rw [splitSlash_cons_eq c rest h]
      split <;> simp

lemma splitSlash_no_slash : ∀ s : Str, ∀ p ∈ splitSlash s, '/' ∉ p
  | [] => by simp [splitSlash]
  | c :: rest => by
    have ih := splitSlash_no_slash rest
    cases h : splitSlash rest with
    | nil => exact absurd h (splitSlash_ne_nil rest)
    | cons p ps =>
      rw [h] at ih
      rw [splitSlash_cons_eq c rest h]
      intro q hq
      by_cases hc : c = '/'
      · rw [if_pos hc] at hq
        rcases List.mem_cons.mp hq with rfl | hq'
        · simp
        · exact ih q hq'
      · rw [if_neg hc] at hq
        rcases List.mem_cons.mp hq with rfl | hq'
        · intro hmem
          rcases List.mem_cons.mp hmem with hh | hh
          · exact hc hh.symm
          · exact ih p (List.mem_cons_self _ _) hh
        · exact ih q (List.mem_cons_of_mem _ hq')

lemma joinSlash_cons_ne (p : Str) {ps : List Str} (h : ps ≠ []) :
    joinSlash (p :: ps) = p ++ '/' :: joinSlash ps := by
  cases ps with
  | nil => exact absurd rfl h
  | cons q qs => rfl

lemma joinSlash_splitSlash : ∀ s : Str, joinSlash (splitSlash s) = s
  | [] => rfl
  | c :: rest => by
    have ih := joinSlash_splitSlash rest
    cases h : splitSlash rest with
    | nil => exact absurd h (splitSlash_ne_nil rest)
    | cons p ps =>
      rw [h] at ih
      rw [splitSlash_cons_eq c rest h]
      by_cases hc : c = '/'
      · subst hc
        rw [if_pos rfl, joinSlash_cons_ne [] (by simp), List.nil_append, ih]
      · rw [if_neg hc]
        cases ps with
        | nil =>
          simp only [joinSlash] at ih ⊢
          rw [ih]
        | cons q qs =>
          rw [joinSlash_cons_ne (c :: p) (by simp), List.cons_append]
          rw [joinSlash_cons_ne p (by simp)] at ih
          rw [ih]

lemma splitSlash_no_slash_id (p : Str) (hp : '/' ∉ p) : splitSlash p = [p] := by
  induction p with
  | nil => rfl
  | cons c p ih =>
    have hc : c ≠ '/' := fun hh => hp (by simp [hh])
    have hp' : '/' ∉ p := fun hh => hp (by simp [hh])
    rw [splitSlash_cons_eq c p (ih hp')]
    simp [hc]

lemma splitSlash_prepend (p t : Str) (hp : '/' ∉ p) :
    splitSlash (p ++ '/' :: t) = p :: splitSlash t := by
  induction p with
  | nil =>
    show splitSlash ('/' :: t) = [] :: splitSlash t
    cases h : splitSlash t with
    | nil => exact absurd h (splitSlash_ne_nil t)
    | cons q qs =>
      rw [splitSlash_cons_eq '/' t h, if_pos rfl]
  | cons c p ih =>
    have hc : c ≠ '/' := fun hh => hp (by simp [hh])
    have hp' : '/' ∉ p := fun hh => hp (by simp [hh])
    show splitSlash (c :: (p ++ '/' :: t)) = (c :: p) :: splitSlash t
    cases h : splitSlash t with
    | nil => exact absurd h (splitSlash_ne_nil t)
    | cons q qs =>
      have hpre := ih hp'
      rw [h] at hpre
      rw [splitSlash_cons_eq c (p ++ '/' :: t) hpre, if_neg hc]

lemma splitSlash_joinSlash : ∀ (ps : List Str), ps ≠ [] → (∀ p ∈ ps, '/' ∉ p) →
    splitSlash (joinSlash ps) = ps
  | [], h, _ => absurd rfl h
  | [p], _, hns => splitSlash_no_slash_id p (hns p (by simp))
  | p :: q :: qs, _, hns => by
    rw [joinSlash_cons_ne p (by simp)]
    rw [splitSlash_prepend p (joinSlash (q :: qs)) (hns p (by simp))]
    rw [splitSlash_joinSlash (q :: qs) (by simp) (fun r hr => hns r (List.mem_cons_of_mem _ hr))]

lemma joinSlash_take_drop : ∀ (ps : List Str) (i : Nat), 0 < i → i < ps.length →
    joinSlash ps = joinSlash (ps.take i) ++ '/' :: joinSlash (ps.drop i)
  | [], i, _, h => by simp at h
  | p :: ps, 0, h, _ => absurd h (lt_irrefl 0)
  | p :: ps, 1, _, h => by
    have hps : ps ≠ [] := by
      intro hh
      rw [hh] at h
      simp at h
    rw [joinSlash_cons_ne p hps]
    simp [joinSlash]
  | p :: ps, (i+2), _, h => by
    have h' : i + 1 < ps.length := by
      simpa using Nat.lt_of_succ_lt_succ h
    have ht : ps.take (i+1) ≠ [] := by
      apply List.length_pos.mp
      rw [List.length_take]
      omega
    have hps : ps ≠ [] := by
      intro hh
      rw [hh] at h'
      simp at h'
    rw [joinSlash_cons_ne p hps, joinSlash_take_drop ps (i+1) (Nat.succ_pos _) h',
      List.take_succ_cons, List.drop_succ_cons, joinSlash_cons_ne p ht]
    simp

lemma mem_ancestorsOf_iff {f p : Str} :
    p ∈ ancestorsOf f ↔
      ∃ i, 1 ≤ i ∧ i < (splitSlash f).length ∧ p = joinSlash ((splitSlash f).take i) := by
  have hk : 0 < (splitSlash f).length := List.length_pos.mpr (splitSlash_ne_nil f)
  unfold ancestorsOf
  simp only [List.mem_map, List.mem_range'_1]
  constructor
  · rintro ⟨i, ⟨h1, h2⟩, h3⟩
    exact ⟨i, h1, by omega, h3.symm⟩
  · rintro ⟨i, h1, h2, h3⟩
    exact ⟨i, ⟨h1, by omega⟩, h3.symm⟩

lemma lt_append_cons (l : Str) (c : Char) (t : Str) : l < l ++ c :: t := by
  induction l with
  | nil => exact List.Lex.nil
  | cons a l ih => exact List.Lex.cons ih

lemma ancestor_lt {f p : Str} (h : p ∈ ancestorsOf f) : p < f := by
  obtain ⟨i, h1, h2, rfl⟩ := mem_ancestorsOf_iff.mp h
  have hsplit := joinSlash_take_drop (splitSlash f) i h1 h2
  rw [joinSlash_splitSlash] at hsplit
  conv_rhs => rw [hsplit]
  exact lt_append_cons _ _ _

lemma not_self_ancestor (x : Str) : x ∉ ancestorsOf x :=
  fun h => lt_irrefl x (ancestor_lt h)

lemma ancestorsOf_trans {f g p : Str} (hg : g ∈ ancestorsOf f) (hp : p ∈ ancestorsOf g) :
    p ∈ ancestorsOf f := by
  obtain ⟨i, hi1, hi2, rfl⟩ := mem_ancestorsOf_iff.mp hg
  have htne : (splitSlash f).take i ≠ [] := by
    apply List.length_pos.mp
    rw [List.length_take]
    omega
  have hsg : splitSlash (joinSlash ((splitSlash f).take i)) = (splitSlash f).take i :=
    splitSlash_joinSlash _ htne (fun q hq => splitSlash_no_slash f q (List.take_subset _ _ hq))
  obtain ⟨j, hj1, hj2, rfl⟩ := mem_ancestorsOf_iff.mp hp
  rw [hsg, List.length_take] at hj2
  have hji : j < i := by omega
  apply mem_ancestorsOf_iff.mpr
  refine ⟨j, hj1, by omega, ?_⟩
  rw [hsg, List.take_take, Nat.min_eq_left (le_of_lt hji)]

/-! Lemmas about folder blocks and the built row list. -/

lemma folder_row_mem_block {allNotes : List Note} {F E : List Str} {q g f : Str} {ind : Nat} :
    Row.folder f ind ∈ folderBlock allNotes F E q g ↔
      f = g ∧ folderVisible F E q g = true ∧ ind = g.count '/' * 2 := by
  unfold folderBlock
  by_cases hvis : folderVisible F E q g = true
  · rw [if_pos hvis]
    constructor
    · intro hmem
      rcases List.mem_cons.mp hmem with heq | hmem'
      · injection heq with h1 h2
        exact ⟨h1, hvis, h2⟩
      · exfalso
        by_cases hc : (decide (g ∈ E) || !q.isEmpty) = true
        · rw [if_pos hc] at hmem'
          obtain ⟨n, -, hn⟩ := List.mem_map.mp hmem'
          exact Row.noConfusion hn
        · rw [if_neg hc] at hmem'
          exact List.not_mem_nil _ hmem'
    · rintro ⟨rfl, -, rfl⟩
      exact List.mem_cons_self _ _
  · rw [if_neg hvis]
    simp only [List.not_mem_nil, false_iff]
    rintro ⟨-, hv, -⟩
    exact hvis hv

lemma block_head (allNotes : List Note) {F E : List Str} {q f : Str}
    (hvis : folderVisible F E q f = true) :
    ∃ tail, folderBlock allNotes F E q f = Row.folder f (f.count '/' * 2) :: tail ∧
      ∀ r ∈ tail, ∃ n j, r = Row.note n j ∧ n.folder = f := by
  unfold folderBlock
  rw [if_pos hvis]
  refine ⟨_, rfl, ?_⟩
  intro r hr
  by_cases hc : (decide (f ∈ E) || !q.isEmpty) = true
  · rw [if_pos hc] at hr
    obtain ⟨n, hn, rfl⟩ := List.mem_map.mp hr
    refine ⟨n, _, rfl, ?_⟩
    have hn1 : n ∈ (getNotesInFolder allNotes f).insertionSort noteNameLe :=
      List.mem_of_mem_filter hn
    have hn2 : n ∈ getNotesInFolder allNotes f :=
      (List.perm_insertionSort _ _).mem_iff.mp hn1
    rw [getNotesInFolder] at hn2
    simpa using List.of_mem_filter hn2
  · rw [if_neg hc] at hr
    exact absurd hr (List.not_mem_nil r)

lemma all_congr_mem {α : Type} {l : List α} {f g : α → Bool}
    (h : ∀ a ∈ l, f a = g a) : l.all f = l.all g := by
  induction l with
  | nil => rfl
  | cons a l ih =>
    rw [List.all_cons, List.all_cons, h a (List.mem_cons_self _ _),
      ih (fun b hb => h b (List.mem_cons_of_mem _ hb))]

lemma flatMap_congr_mem {α β : Type} {l : List α} {f g : α → List β}
    (h : ∀ a ∈ l, f a = g a) : l.flatMap f = l.flatMap g := by
  induction l with
  | nil => rfl
  | cons a l ih =>
    rw [List.flatMap_cons, List.flatMap_cons, h a (List.mem_cons_self _ _),
      ih (fun b hb => h b (List.mem_cons_of_mem _ hb))]

lemma folderVisible_congr {F E E' : List Str} {x f : Str}
    (hE : ∀ y, y ≠ x → (y ∈ E' ↔ y ∈ E)) (hxf : x ∉ ancestorsOf f) :
    folderVisible F E' [] f = folderVisible F E [] f := by
  unfold folderVisible
  rw [if_pos (show (([] : Str)).isEmpty = true from rfl),
    if_pos (show (([] : Str)).isEmpty = true from rfl)]
  exact all_congr_mem (fun p hp => by
    rw [decide_eq_decide.mpr (hE p (fun hh => hxf (hh ▸ hp)))])

lemma folderBlock_congr {allNotes : List Note} {F : List Str} {E E' : List Str} {x f : Str}
    (hE : ∀ y, y ≠ x → (y ∈ E' ↔ y ∈ E)) (hxf : x ∉ ancestorsOf f) (hfx : f ≠ x) :
    folderBlock allNotes F E' [] f = folderBlock allNotes F E [] f := by
  unfold folderBlock
  rw [folderVisible_congr hE hxf, decide_eq_decide.mpr (hE f hfx)]

lemma blockOk_notes (f : Str) (ns rest : List Row)
    (h : ∀ r ∈ ns, ∃ n j, r = Row.note n j ∧ n.folder = f) :
    blockOk (some f) (ns ++ rest) = blockOk (some f) rest := by
  induction ns with
  | nil => rfl
  | cons r ns ih =>
    obtain ⟨n, j, rfl, hnf⟩ := h r (List.mem_cons_self _ _)
    rw [List.cons_append]
    show (decide (n.folder = f) && blockOk (some f) (ns ++ rest)) = blockOk (some f) rest
    rw [decide_eq_true hnf, Bool.true_and]
    exact ih (fun r hr => h r (List.mem_cons_of_mem _ hr))

lemma blockOk_folder_cons (cur : Option Str) (f : Str) (i : Nat) (rest : List Row) :
    blockOk cur (Row.folder f i :: rest) = blockOk (some f) rest := by
  cases cur <;> rfl

lemma blockOk_flatMap (allNotes : List Note) (F E : List Str) (q : Str) :
    ∀ (l : List Str) (cur : Option Str),
      blockOk cur (l.flatMap (folderBlock allNotes F E q)) = true
  | [], cur => by
    rw [List.flatMap_nil]
    cases cur <;> rfl
  | f :: l, cur => by
    rw [List.flatMap_cons]
    by_cases hvis : folderVisible F E q f = true
    · obtain ⟨tail, heq, htail⟩ := block_head allNotes hvis
      rw [heq, List.cons_append, blockOk_folder_cons]
      rw [blockOk_notes f tail _ htail]
      exact blockOk_flatMap allNotes F E q l (some f)
    · have hnil : folderBlock allNotes F E q f = [] := by
        unfold folderBlock
        rw [if_neg hvis]
      rw [hnil, List.nil_append]
      exact blockOk_flatMap allNotes F E q l cur

lemma sel_index_lt_rebuild {allNotes : List Note} {F E E' : List Str} {x : Str}
    {i ind : Nat} (hF : F.Nodup)
    (hE : ∀ y, y ≠ x → (y ∈ E' ↔ y ∈ E))
    (hrow : (buildTreeItems allNotes F E [])[i]? = some (Row.folder x ind)) :
    i < (buildTreeItems allNotes F E' []).length := by
  have hmem : Row.folder x ind ∈ buildTreeItems allNotes F E [] := List.getElem?_mem hrow
  obtain ⟨g, hgl, hgb⟩ := List.mem_flatMap.mp hmem
  obtain ⟨hxg, hvis, hind⟩ := folder_row_mem_block.mp hgb
  subst hxg
  have hsorted : (sortStr F).Sorted (· ≤ ·) := List.sorted_insertionSort _ F
  have hnd : (sortStr F).Nodup := (List.perm_insertionSort _ F).nodup_iff.mpr hF
  obtain ⟨l₁, l₂, hdec⟩ := List.append_of_mem hgl
  rw [hdec] at hsorted hnd
  have hx1 : x ∉ l₁ := by
    intro hh
    exact (List.nodup_append.mp hnd).2.2 hh (List.mem_cons_self _ _)
  have hx2 : x ∉ l₂ := by
    have h2 := (List.nodup_append.mp hnd).2.1
    exact (List.nodup_cons.mp h2).1
  have hle : ∀ f ∈ l₁, f ≤ x := by
    intro f hf
    exact (List.pairwise_append.mp hsorted).2.2 f hf x (List.mem_cons_self _ _)
  have hcongr : ∀ f ∈ l₁, folderBlock allNotes F E' [] f = folderBlock allNotes F E [] f := by
    intro f hf
    have hxf : x ∉ ancestorsOf f := by
      intro hanc
      exact absurd (hle f hf) (not_le.mpr (ancestor_lt hanc))
    have hfx : f ≠ x := fun hh => hx1 (hh ▸ hf)
    exact folderBlock_congr hE hxf hfx
  have hrowsE : buildTreeItems allNotes F E [] =
      l₁.flatMap (folderBlock allNotes F E []) ++
        (folderBlock allNotes F E [] x ++ l₂.flatMap (folderBlock allNotes F E [])) := by
    rw [buildTreeItems, hdec, List.flatMap_append, List.flatMap_cons]
  have hrowsE' : buildTreeItems allNotes F E' [] =
      l₁.flatMap (folderBlock allNotes F E []) ++
        (folderBlock allNotes F E' [] x ++ l₂.flatMap (folderBlock allNotes F E' [])) := by
    rw [buildTreeItems, hdec, List.flatMap_append, List.flatMap_cons,
      flatMap_congr_mem hcongr]
  obtain ⟨tailE, hBE, htailE⟩ := block_head allNotes hvis
  have hvis' : folderVisible F E' [] x = true := by
    rw [folderVisible_congr hE (not_self_ancestor x)]
    exact hvis
  obtain ⟨tailE', hBE', -⟩ := block_head allNotes hvis'
  have hiA : i = (l₁.flatMap (folderBlock allNotes F E [])).length := by
    rcases Nat.lt_trichotomy i (l₁.flatMap (folderBlock allNotes F E [])).length with
      hlt | heq | hgt
    · exfalso
      rw [hrowsE, List.getElem?_append, if_pos hlt] at hrow
      have hmem1 : Row.folder x ind ∈ l₁.flatMap (folderBlock allNotes F E []) :=
        List.getElem?_mem hrow
      obtain ⟨f, hf1, hfb⟩ := List.mem_flatMap.mp hmem1
      obtain ⟨rfl, -, -⟩ := folder_row_mem_block.mp hfb
      exact hx1 hf1
    · exact heq
    · exfalso
      rw [hrowsE, List.getElem?_append_right (le_of_lt hgt), hBE, List.cons_append] at hrow
      obtain ⟨m, hm⟩ : ∃ m, i - (l₁.flatMap (folderBlock allNotes F E [])).length = m + 1 :=
        ⟨i - (l₁.flatMap (folderBlock allNotes F E [])).length - 1, by omega⟩
      rw [hm, List.getElem?_cons_succ] at hrow
      have hmem2 : Row.folder x ind ∈
          tailE ++ l₂.flatMap (folderBlock allNotes F E []) := List.getElem?_mem hrow
      rcases List.mem_append.mp hmem2 with hin | hin
      · obtain ⟨n, j, heq2, -⟩ := htailE _ hin
        exact Row.noConfusion heq2
      · obtain ⟨f, hf1, hfb⟩ := List.mem_flatMap.mp hin
        obtain ⟨rfl, -, -⟩ := folder_row_mem_block.mp hfb
        exact hx2 hf1
  rw [hrowsE', hiA, List.length_append, hBE', List.cons_append, List.length_cons]
  omega

/-! Claim theorems. -/

lemma mem_getFolders {allNotes : List Note} {walk : List DirEntry} {g : Str} :
    g ∈ getFolders allNotes walk ↔
      g ∈ allNotes.flatMap (fun n => n.folder :: ancestorsOf n.folder) ++
        walk.flatMap (fun d =>
          if d.rel ≠ chrs "." ∧ d.hasNotes = false then d.rel :: ancestorsOf d.rel
          else []) := by
  unfold getFolders
  rw [mem_sortStr, List.mem_dedup]

/-- C8: move_down and move_up advance the selection with wraparound modulo
the number of rows, and both are no-ops when the row list is empty. -/
theorem move_wraparound (s : AppS) :
    (s.tree_items = [] → move_down s = s ∧ move_up s = s) ∧
    (s.tree_items ≠ [] →
      (move_down s).selected_index = (s.selected_index + 1) % s.tree_items.length ∧
      (move_up s).selected_index =
        (s.selected_index + s.tree_items.length - 1) % s.tree_items.length) := by
  constructor
  · intro h
    constructor <;> simp [move_down, move_up, h]
  · intro h
    have he : s.tree_items.isEmpty = false := isEmpty_false_of_ne_nil h
    constructor <;> simp [move_down, move_up, he]

/-- C8 witness: over three rows, move_down at index 2 yields index 0 and
move_up at index 0 yields index 2. -/
theorem move_wraparound_witness :
    (move_down sThreeLast).selected_index = 0 ∧
    (move_up sThreeFirst).selected_index = 2 := by
  constructor
  · exact ((move_wraparound sThreeLast).2 (by decide)).1.trans (by decide)
  · exact ((move_wraparound sThreeFirst).2 (by decide)).2.trans (by decide)

/-- C1 counterexample: in the reachable state with folders a, b, b/c and the
selection moved down to folder b, expanding b changes the row sequence but
the selection index stays 1; so the index is not reset to 0 after every
rebuild. -/
theorem selection_reset_cex :
    (expand_folder (move_down (initState [] walkB))).tree_items ≠
      (move_down (initState [] walkB)).tree_items ∧
    (expand_folder (move_down (initState [] walkB))).selected_index = 1 := by decide

/-- C1 (amended): a query edit rebuilds the rows and resets the selection
index to 0; expand, collapse and toggle rebuild the rows but leave the
selection index unchanged. -/
theorem selection_reset_on_query_only (s : AppS) (q : Str) :
    (update_filtered_notes s q).selected_index = 0 ∧
    (expand_folder s).selected_index = s.selected_index ∧
    (collapse_folder s).selected_index = s.selected_index ∧
    (toggle_or_open s).selected_index = s.selected_index := by
  refine ⟨rfl, ?_, ?_, ?_⟩
  · unfold expand_folder
    split
    · rfl
    · split
      · split
        · rfl
        · rfl
      · rfl
  · unfold collapse_folder
    split
    · rfl
    · split
      · split
        · rfl
        · rfl
      · rfl
  · unfold toggle_or_open
    split
    · rfl
    · split
      · rfl
      · rfl

/-- C6 counterexample: the confirmation input " DELETE " differs from the
exact phrase DELETE, yet delete_file strips it and deletes the file. -/
theorem delete_confirmation_strip_cex :
    chrs " DELETE " ≠ chrs "DELETE" ∧
    (delete_file [chrs "a/n.md"] true (chrs " DELETE ") (chrs "a/n.md")).deleted = true ∧
    (delete_file [chrs "a/n.md"] true (chrs " DELETE ") (chrs "a/n.md")).fs = [] := by decide

/-- C6 (amended): whenever the confirmation input, after stripping leading
and trailing whitespace, differs from the exact phrase DELETE, delete_file
returns false and leaves the filesystem unchanged. -/
theorem delete_requires_confirmation (fs : List Str) (safe : Bool)
    (confirm notePath : Str) (h : stripStr confirm ≠ chrs "DELETE") :
    (delete_file fs safe confirm notePath).deleted = false ∧
    (delete_file fs safe confirm notePath).fs = fs := by
  cases safe with
  | false => exact ⟨rfl, rfl⟩
  | true =>
    unfold delete_file
    rw [if_neg (by simp), if_pos h]
    exact ⟨rfl, rfl⟩

/-- C6 witness: the confirmation "delete" is rejected and the file stays. -/
theorem delete_requires_confirmation_witness :
    (delete_file [chrs "a/n.md"] true (chrs "delete") (chrs "a/n.md")).deleted = false ∧
    (delete_file [chrs "a/n.md"] true (chrs "delete") (chrs "a/n.md")).fs =
      [chrs "a/n.md"] :=
  delete_requires_confirmation [chrs "a/n.md"] true (chrs "delete") (chrs "a/n.md")
    (by decide)

/-- C7: when the resolved target folder exists and the typed (stripped)
filename is non-empty, passes validation and does not collide, create_new_note
appends the default extension .md exactly when the name ends in neither of
the recognised extensions .txt and .md, and otherwise keeps the name
unchanged. -/
theorem create_note_default_extension (existing : List Str) (raw : Str)
    (h1 : stripStr raw ≠ []) (h2 : validate_filename (stripStr raw) = true)
    (h3 : stripStr raw ++ chrs ".md" ∉ existing) (h4 : stripStr raw ∉ existing) :
    (endsWithStr (stripStr raw) (chrs ".txt") = false ∧
        endsWithStr (stripStr raw) (chrs ".md") = false →
      create_new_note true existing raw = some (stripStr raw ++ chrs ".md")) ∧
    (endsWithStr (stripStr raw) (chrs ".txt") = true ∨
        endsWithStr (stripStr raw) (chrs ".md") = true →
      create_new_note true existing raw = some (stripStr raw)) := by
  have hne : (stripStr raw).isEmpty = false := isEmpty_false_of_ne_nil h1
  constructor
  · rintro ⟨e1, e2⟩
    have hany : NOTE_EXTENSIONS.any (fun e => endsWithStr (stripStr raw) e) = false := by
      simp [NOTE_EXTENSIONS, e1, e2]
    unfold create_new_note
    rw [if_neg (by simp), if_neg (by simp [hne]), if_neg (by simp [h2]), hany]
    simp only [Bool.false_eq_true, if_false]
    rw [if_neg h3]
  · intro he
    have hany : NOTE_EXTENSIONS.any (fun e => endsWithStr (stripStr raw) e) = true := by
      rcases he with e | e <;> simp [NOTE_EXTENSIONS, e]
    unfold create_new_note
    rw [if_neg (by simp), if_neg (by simp [hne]), if_neg (by simp [h2]), hany]
    simp only [if_true]
    rw [if_neg h4]

/-- C7 witness: creating "plan" yields plan.md and creating "plan.txt"
yields plan.txt unchanged. -/
theorem create_note_default_extension_witness :
    create_new_note true [] (chrs "plan") = some (chrs "plan.md") ∧
    create_new_note true [] (chrs "plan.txt") = some (chrs "plan.txt") := by
  constructor
  · exact ((create_note_default_extension [] (chrs "plan") (by decide) (by decide)
      (by decide) (by decide)).1 (by decide)).trans (by decide)
  · exact ((create_note_default_extension [] (chrs "plan.txt") (by decide) (by decide)
      (by decide) (by decide)).2 (Or.inl (by decide))).trans (by decide)

/-- C9: if some note sits directly in a configured root, so its relative
containing folder is the literal path ".", then "." is a member of the
synthesized folder set. -/
theorem dot_folder_for_root_notes (allNotes : List Note) (walk : List DirEntry)
    (n : Note) (hn : n ∈ allNotes) (hdot : n.folder = chrs ".") :
    chrs "." ∈ getFolders allNotes walk := by
  rw [mem_getFolders, List.mem_append]
  exact Or.inl (List.mem_flatMap.mpr ⟨n, hn, by rw [hdot]; exact List.mem_cons_self _ _⟩)

/-- C9 witness: a single note directly in the root puts "." in the folder
set. -/
theorem dot_folder_for_root_notes_witness :
    chrs "." ∈ getFolders [⟨chrs "r.md", chrs "."⟩] [] :=
  dot_folder_for_root_notes _ [] ⟨chrs "r.md", chrs "."⟩ (by decide) rfl

/-- C4: with a non-empty query (the builder receives the lower-cased buffer
text), every folder in the folder list whose path contains the query as a
case-insensitive substring contributes a folder row, whatever the expanded
set holds. -/
theorem query_matches_always_visible (allNotes : List Note) (F E : List Str)
    (q f : Str) (hq : lowerStr q ≠ []) (hf : f ∈ F)
    (hsub : hasSub (lowerStr q) (lowerStr f) = true) :
    Row.folder f (f.count '/' * 2) ∈ buildTreeItems allNotes F E (lowerStr q) := by
  apply List.mem_flatMap.mpr
  refine ⟨f, mem_sortStr.mpr hf, ?_⟩
  apply folder_row_mem_block.mpr
  refine ⟨rfl, ?_, rfl⟩
  unfold folderVisible
  have hne : ¬((lowerStr q).isEmpty = true) := fun hh => hq (List.isEmpty_iff.mp hh)
  rw [if_neg hne]
  exact hsub

/-- C4 witness: with query "FOO" and a collapsed tree, the folder x/Food is
still visible. -/
theorem query_matches_always_visible_witness :
    Row.folder (chrs "x/Food") ((chrs "x/Food").count '/' * 2) ∈
      buildTreeItems [] [chrs "x/Food"] [] (lowerStr (chrs "FOO")) :=
  query_matches_always_visible [] [chrs "x/Food"] [] (chrs "FOO") (chrs "x/Food")
    (by decide) (by decide) (by decide)

/-- C5: the folder set produced by _get_folders is ancestor-closed: every
proper prefix (split on slashes) of every member is also a member. -/
theorem getFolders_ancestor_closed (allNotes : List Note) (walk : List DirEntry)
    (g : Str) (hg : g ∈ getFolders allNotes walk) (p : Str) (hp : p ∈ ancestorsOf g) :
    p ∈ getFolders allNotes walk := by
  rw [mem_getFolders, List.mem_append] at hg ⊢
  rcases hg with hg | hg
  · obtain ⟨n, hn, hmem⟩ := List.mem_flatMap.mp hg
    rcases List.mem_cons.mp hmem with rfl | hanc
    · exact Or.inl (List.mem_flatMap.mpr ⟨n, hn, List.mem_cons_of_mem _ hp⟩)
    · exact Or.inl (List.mem_flatMap.mpr ⟨n, hn,
        List.mem_cons_of_mem _ (ancestorsOf_trans hanc hp)⟩)
  · obtain ⟨d, hd, hmem⟩ := List.mem_flatMap.mp hg
    by_cases hcond : d.rel ≠ chrs "." ∧ d.hasNotes = false
    · rw [if_pos hcond] at hmem
      rcases List.mem_cons.mp hmem with rfl | hanc
      · refine Or.inr (List.mem_flatMap.mpr ⟨d, hd, ?_⟩)
        rw [if_pos hcond]
        exact List.mem_cons_of_mem _ hp
      · refine Or.inr (List.mem_flatMap.mpr ⟨d, hd, ?_⟩)
        rw [if_pos hcond]
        exact List.mem_cons_of_mem _ (ancestorsOf_trans hanc hp)
    · rw [if_neg hcond] at hmem
      exact absurd hmem (List.not_mem_nil g)

/-- C5 witness: from a note in a/b/c, the member a/b has its ancestor a in
the set as well. -/
theorem getFolders_ancestor_closed_witness :
    chrs "a" ∈ getFolders [⟨chrs "n.md", chrs "a/b/c"⟩] [] :=
  getFolders_ancestor_closed [⟨chrs "n.md", chrs "a/b/c"⟩] [] (chrs "a/b")
    (by decide) (chrs "a") (by decide)

/-- C3 counterexample: on the folder list containing only a/b (not
ancestor-closed) with nothing expanded, the builder still emits the folder
row for a/b although its ancestor prefix a is not in the expanded set, so
the claimed equivalence fails for arbitrary folder sets. -/
theorem folder_visible_no_query_cex :
    Row.folder (chrs "a/b") 2 ∈ buildTreeItems [] [chrs "a/b"] [] [] ∧
    chrs "a" ∈ ancestorsOf (chrs "a/b") ∧ chrs "a" ∉ ([] : List Str) := by decide

/-- C3 (amended): for every ancestor-closed folder list (as the synthesizer
produces) and every expanded set, with an empty query a folder row for f
appears in the built rows exactly when f is in the folder list and every
ancestor prefix of f is expanded. -/
theorem folder_visible_iff_ancestors_expanded (allNotes : List Note) (F E : List Str)
    (f : Str) (hC : ancestorClosed F) :
    (∃ ind, Row.folder f ind ∈ buildTreeItems allNotes F E []) ↔
      f ∈ F ∧ ∀ p ∈ ancestorsOf f, p ∈ E := by
  constructor
  · rintro ⟨ind, hmem⟩
    obtain ⟨g, hgl, hgb⟩ := List.mem_flatMap.mp hmem
    obtain ⟨heq, hvis, -⟩ := folder_row_mem_block.mp hgb
    subst heq
    have hfF : f ∈ F := mem_sortStr.mp hgl
    refine ⟨hfF, fun p hp => ?_⟩
    unfold folderVisible at hvis
    rw [if_pos (show (([] : Str)).isEmpty = true from rfl), List.all_eq_true] at hvis
    have h2 := hvis p hp
    rw [Bool.or_eq_true, Bool.not_eq_true', decide_eq_false_iff_not,
      decide_eq_true_eq] at h2
    rcases h2 with h2 | h2
    · exact absurd (hC f hfF p hp) h2
    · exact h2
  · rintro ⟨hf, hanc⟩
    refine ⟨f.count '/' * 2, ?_⟩
    apply List.mem_flatMap.mpr
    refine ⟨f, mem_sortStr.mpr hf, ?_⟩
    apply folder_row_mem_block.mpr
    refine ⟨rfl, ?_, rfl⟩
    unfold folderVisible
    rw [if_pos (show (([] : Str)).isEmpty = true from rfl), List.all_eq_true]
    intro p hp
    rw [Bool.or_eq_true, decide_eq_true_eq]
    exact Or.inr (hanc p hp)

/-- C3 witness: over the closed folder list a, a/b, a/b/c with a expanded,
the folder row for a/b appears and the folder row for a/b/c does not. -/
theorem folder_visible_iff_ancestors_expanded_witness :
    (∃ ind, Row.folder (chrs "a/b") ind ∈
      buildTreeItems [] [chrs "a", chrs "a/b", chrs "a/b/c"] [chrs "a"] []) ∧
    ¬ (∃ ind, Row.folder (chrs "a/b/c") ind ∈
      buildTreeItems [] [chrs "a", chrs "a/b", chrs "a/b/c"] [chrs "a"] []) := by
  constructor
  · exact (folder_visible_iff_ancestors_expanded [] [chrs "a", chrs "a/b", chrs "a/b/c"]
      [chrs "a"] (chrs "a/b") (by unfold ancestorClosed; decide)).mpr (by decide)
  · intro h
    have h2 := (folder_visible_iff_ancestors_expanded [] [chrs "a", chrs "a/b", chrs "a/b/c"]
      [chrs "a"] (chrs "a/b/c") (by unfold ancestorClosed; decide)).mp h
    exact (by decide : ¬(chrs "a/b/c" ∈ [chrs "a", chrs "a/b", chrs "a/b/c"] ∧
      ∀ p ∈ ancestorsOf (chrs "a/b/c"), p ∈ [chrs "a"])) h2

/-- C10: in every row list the tree builder produces, each note row carries
the folder of the nearest preceding folder row — so the note rows of a
folder form a contiguous block directly after that folder's row, and no note
row appears without its containing folder's row before it. -/
theorem note_rows_follow_their_folder (allNotes : List Note) (F E : List Str)
    (q : Str) :
    blockOk none (buildTreeItems allNotes F E q) = true := by
  unfold buildTreeItems
  exact blockOk_flatMap allNotes F E q (sortStr F) none

/-- C2 counterexample: a reachable state (expand a; select and expand a/c;
collapse a; type query "a"; select the last of the four matching rows;
collapse it) in which the rebuild drops the query, the rows shrink to one,
and the selection index stays 3 — outside [0, 1). -/
theorem selection_out_of_range_cex :
    outOfRangeState.tree_items ≠ [] ∧
    outOfRangeState.tree_items.length = 1 ∧
    outOfRangeState.selected_index = 3 := by decide

/-- C2 (amended): in the absence of a search query, every tree operation
preserves the state consistency StateInv, and in particular leaves the
selection index inside [0, len(rows)) whenever the rows are non-empty; the
index is never clamped, and a structural operation performed while a query
is active can leave it out of range (see the counterexample). -/
theorem selection_in_range_no_query (s : AppS) (h : StateInv s) :
    StateInv (move_down s) ∧ StateInv (move_up s) ∧ StateInv (expand_folder s) ∧
    StateInv (collapse_folder s) ∧ StateInv (toggle_or_open s) := by
  obtain ⟨hnd, hitems, hidx⟩ := h
  refine ⟨?_, ?_, ?_, ?_, ?_⟩
  · unfold move_down
    split
    next => exact ⟨hnd, hitems, hidx⟩
    next he =>
      have hne : s.tree_items ≠ [] := by
        intro hh
        rw [hh] at he
        exact he rfl
      exact ⟨hnd, hitems, fun _ => Nat.mod_lt _ (List.length_pos.mpr hne)⟩
  · unfold move_up
    split
    next => exact ⟨hnd, hitems, hidx⟩
    next he =>
      have hne : s.tree_items ≠ [] := by
        intro hh
        rw [hh] at he
        exact he rfl
      exact ⟨hnd, hitems, fun _ => Nat.mod_lt _ (List.length_pos.mpr hne)⟩
  · unfold expand_folder
    split
    next => exact ⟨hnd, hitems, hidx⟩
    next =>
      split
      next f ind hsel =>
        split
        next => exact ⟨hnd, hitems, hidx⟩
        next =>
          refine ⟨hnd, rfl, fun _ => ?_⟩
          have hrow : (buildTreeItems s.all_notes s.filtered_notes
              s.expanded_folders [])[s.selected_index]? = some (Row.folder f ind) := by
            rw [← hitems]
            exact hsel
          exact sel_index_lt_rebuild hnd (fun y hy => by simp [List.mem_cons, hy]) hrow
      next => exact ⟨hnd, hitems, hidx⟩
  · unfold collapse_folder
    split
    next => exact ⟨hnd, hitems, hidx⟩
    next =>
      split
      next f ind hsel =>
        split
        next =>
          refine ⟨hnd, rfl, fun _ => ?_⟩
          have hrow : (buildTreeItems s.all_notes s.filtered_notes
              s.expanded_folders [])[s.selected_index]? = some (Row.folder f ind) := by
            rw [← hitems]
            exact hsel
          exact sel_index_lt_rebuild hnd (fun y hy => List.mem_erase_of_ne hy) hrow
        next => exact ⟨hnd, hitems, hidx⟩
      next => exact ⟨hnd, hitems, hidx⟩
  · unfold toggle_or_open
    split
    next => exact ⟨hnd, hitems, hidx⟩
    next =>
      split
      next f ind hsel =>
        refine ⟨hnd, rfl, fun _ => ?_⟩
        have hrow : (buildTreeItems s.all_notes s.filtered_notes
            s.expanded_folders [])[s.selected_index]? = some (Row.folder f ind) := by
          rw [← hitems]
          exact hsel
        by_cases hc : f ∈ s.expanded_folders
        · simp only [if_pos hc]
          exact sel_index_lt_rebuild hnd (fun y hy => List.mem_erase_of_ne hy) hrow
        · simp only [if_neg hc]
          exact sel_index_lt_rebuild hnd (fun y hy => by simp [List.mem_cons, hy]) hrow
      next => exact ⟨hnd, hitems, hidx⟩

/-- C2 witness: the consistent reachable state with folder a expanded keeps
its consistency — selection in range included — under all five operations. -/
theorem selection_in_range_no_query_witness :
    StateInv (move_down (expand_folder (initState [] walkA))) ∧
    StateInv (move_up (expand_folder (initState [] walkA))) ∧
    StateInv (expand_folder (expand_folder (initState [] walkA))) ∧
    StateInv (collapse_folder (expand_folder (initState [] walkA))) ∧
    StateInv (toggle_or_open (expand_folder (initState [] walkA))) :=
  selection_in_range_no_query _ ⟨by decide, by decide, fun _ => by decide⟩
